import Mathlib

/-!
Verification of the row-scanning segmentation algorithm of
`src/app.py` (functions `extract_columns`, lines 151-161, and
`process_extracted_table`, lines 164-203).

The segmenter consumes an ordered sequence of rows.  A cell value is
either a text string, a non-text scalar (modelled as an integer), or
absent.  The Python code distinguishes cells only through `isinstance(x,
str)` and truthiness, both of which are captured below.
-/

namespace Seg

/-- A cell of an input row: a text string, a non-text scalar, or absent. -/
inductive Cell where
  | str : String → Cell
  | num : Int → Cell
  | blank : Cell
deriving DecidableEq, Repr

/-- Python truthiness of a cell value (`if item` in line 173):
an empty string, a zero scalar and an absent value are falsy. -/
def cellTruthy : Cell → Bool
  | Cell.str s => s != ""
  | Cell.num n => n != 0
  | Cell.blank => false

/-- `isinstance(item, str)` of line 173 / line 182. -/
def cellIsStr : Cell → Bool
  | Cell.str _ => true
  | _ => false

/-- `s.replace(" ", "")` of line 174: removes every space character
(U+0020) and nothing else. -/
def stripSpaces (s : String) : String :=
  String.mk (s.data.filter (fun c => c != ' '))

/-- The two trigger literals of line 174. -/
def triggerLiterals : List String := ["반영여부", "적합여부"]

/-- Lines 173-174: the cell is truthy, is a string, and its
space-stripped text is one of the two trigger literals. -/
def isTriggerCell : Cell → Bool
  | Cell.str s => (s != "") && triggerLiterals.contains (stripSpaces s)
  | _ => false

/-- Index of the first cell satisfying `p`, counting from `base`
(the inner `for index, item in enumerate(row)` loop with `break`,
lines 172-178). -/
def findIdxFrom (p : Cell → Bool) : List Cell → Nat → Option Nat
  | [], _ => Option.none
  | c :: rest, base => if p c then some base else findIdxFrom p rest (base + 1)

/-- Column index of the first trigger cell of a row, if any. -/
def findTriggerIdx (row : List Cell) : Option Nat :=
  findIdxFrom isTriggerCell row 0

/-- `subAt sub s`: `s` starts with `sub` (character lists). -/
def subAt : List Char → List Char → Bool
  | [], _ => true
  | _ :: _, [] => false
  | a :: as, b :: bs => a == b && subAt as bs

/-- `subIn sub s`: `sub` occurs contiguously inside `s`. -/
def subIn (sub : List Char) : List Char → Bool
  | [] => subAt sub []
  | b :: bs => subAt sub (b :: bs) || subIn sub bs

/-- Python's substring test `txt in value` (lines 183 and 185). -/
def containsTxt (value txt : String) : Bool :=
  subIn txt.data value.data

/-- The accept literals of line 183. -/
def acceptLiterals : List String := ["반영", "부분반영", "권고", "적합", "조건부적합"]

/-- The reject literals of line 185. -/
def rejectLiterals : List String := ["미반영", "해당없음", "해당사항 없음"]

/-- `any(txt in value for txt in lits)` (lines 183 and 185). -/
def matchesAny (value : String) (lits : List String) : Bool :=
  lits.any (fun txt => containsTxt value txt)

/-- `extract_columns`, lines 151-161, inner loop: walk the row keeping
the set of already-assigned header texts (`recent_columns`); a string
cell whose exact text is new is recorded at its index. -/
def extract_columns_aux : List Cell → Nat → List String → List (Nat × String)
  | [], _, _ => []
  | c :: rest, base, seen =>
    match c with
    | Cell.str s =>
      if seen.contains s then extract_columns_aux rest (base + 1) seen
      else (base, s) :: extract_columns_aux rest (base + 1) (s :: seen)
    | _ => extract_columns_aux rest (base + 1) seen

/-- `extract_columns(row)`, lines 151-161. The Python dict is modelled
as an association list ordered by column index; keys are unique by
construction (see `extract_columns_mem`). -/
def extract_columns (row : List Cell) : List (Nat × String) :=
  extract_columns_aux row 0 []

/-- `columns.get(index, None)` on the modelled dict. -/
def colLookup (cols : List (Nat × String)) (i : Nat) : Option String :=
  (cols.find? (fun p => p.1 == i)).map (fun p => p.2)

/-- `Table` (pydantic model, lines 145-148). `rows` holds row-records,
each a header-to-value mapping modelled as an association list in
insertion order; headers within one ColumnMap are unique (proved below),
so record keys never collide. -/
structure Table where
  columns : List (Nat × String)
  target_index : Nat
  rows : List (List (String × Cell))
deriving DecidableEq, Repr

/-- The loop state of `process_extracted_table`: `active` models the
pair (`table_detected`, `curr_table`) — the flag is true exactly when
`curr_table` is not `None` — and `out` models `extracted_tables`. -/
structure SegState where
  active : Option Table
  out : List Table
deriving DecidableEq, Repr

/-- Line 180: `row[target_index] if target_index < len(row) else ""`. -/
def targetValue (row : List Cell) (i : Nat) : Cell :=
  match row.get? i with
  | some c => c
  | Option.none => Cell.str ""

/-- Lines 193-197: project the cells of a row through the column map,
keeping only indices whose header is truthy (a non-empty string:
`if curr_table.columns.get(index, None):`). -/
def buildRowAux (cols : List (Nat × String)) : List Cell → Nat → List (String × Cell)
  | [], _ => []
  | c :: rest, base =>
    match colLookup cols base with
    | some h =>
      if h != "" then (h, c) :: buildRowAux cols rest (base + 1)
      else buildRowAux cols rest (base + 1)
    | Option.none => buildRowAux cols rest (base + 1)

/-- The row-record built for an accepted row (lines 193-197). -/
def buildRow (cols : List (Nat × String)) (row : List Cell) : List (String × Cell) :=
  buildRowAux cols row 0

/-- Lines 171-178: inactive-state trigger detection for one row; `out`
is the output accumulated so far. -/
def triggerScan (out : List Table) (row : List Cell) : SegState :=
  match findTriggerIdx row with
  | some i =>
    { active := some { columns := extract_columns row, target_index := i, rows := [] }
      out := out }
  | Option.none => { active := Option.none, out := out }

/-- One iteration of the `for row in df.itertuples()` loop body,
lines 170-198. In the active state (lines 179-198): a non-string target
value skips the row (the `isinstance` guard of line 182 has no `else`);
an accept match appends a row-record; a reject match does nothing; any
other string closes the table and moves on to the NEXT row (line 191 is
`continue` — the terminating row is not re-scanned). -/
def stepRow (st : SegState) (row : List Cell) : SegState :=
  match st.active with
  | Option.none => triggerScan st.out row
  | some t =>
    match targetValue row t.target_index with
    | Cell.str v =>
      if matchesAny v acceptLiterals then
        { active := some { t with rows := t.rows ++ [buildRow t.columns row] }
          out := st.out }
      else if matchesAny v rejectLiterals then st
      else { active := Option.none, out := st.out ++ [t] }
    | _ => st

/-- Initial loop state, lines 166-168. -/
def initState : SegState := { active := Option.none, out := [] }

/-- The loop of lines 170-198 over all rows. -/
def runRows (rows : List (List Cell)) : SegState :=
  rows.foldl stepRow initState

/-- `process_extracted_table`, lines 164-203: run the loop, then flush
a still-active table (lines 200-201, `if curr_table:` — a pydantic model
instance is always truthy, so this tests `curr_table is not None`). -/
def process_extracted_table (rows : List (List Cell)) : List Table :=
  match (runRows rows).active with
  | some t => (runRows rows).out ++ [t]
  | Option.none => (runRows rows).out

/-- Modelled from the spec: the spec's terminate branch, unlike the
code, re-processes the terminating row under inactive-state trigger
detection ("re-process this same row under the inactive-state
trigger-detection rule").  Used to compare the code with the spec. -/
def stepRowSpec (st : SegState) (row : List Cell) : SegState :=
  match st.active with
  | Option.none => triggerScan st.out row
  | some t =>
    match targetValue row t.target_index with
    | Cell.str v =>
      if matchesAny v acceptLiterals then
        { active := some { t with rows := t.rows ++ [buildRow t.columns row] }
          out := st.out }
      else if matchesAny v rejectLiterals then st
      else triggerScan (st.out ++ [t]) row
    | _ => st

/-- Modelled from the spec: the whole segmenter with the re-scanning
terminate branch. -/
def process_rescan (rows : List (List Cell)) : List Table :=
  match (rows.foldl stepRowSpec initState).active with
  | some t => (rows.foldl stepRowSpec initState).out ++ [t]
  | Option.none => (rows.foldl stepRowSpec initState).out

/-- Modelled from the spec: trigger recognition as the claim words it,
removing ALL whitespace characters (not only spaces) before comparing
with the trigger literals. -/
def specTriggerCell : Cell → Bool
  | Cell.str s =>
    triggerLiterals.contains (String.mk (s.data.filter (fun c => !c.isWhitespace)))
  | _ => false

/-! ### Helper lemmas about the scanning primitives -/

/-- If the first-index scan starting at `base` answers `some i`, then
`i = base + k` for a position `k` holding a cell satisfying `p`, and no
earlier position does. -/
theorem findIdxFrom_some (p : Cell → Bool) (row : List Cell) :
    ∀ (base i : Nat), findIdxFrom p row base = some i →
      ∃ k c, i = base + k ∧ row.get? k = some c ∧ p c = true ∧
        ∀ j d, j < k → row.get? j = some d → p d = false := by
  induction row with
  | nil => intro base i h; simp [findIdxFrom] at h
  | cons c rest ih =>
    intro base i h
    by_cases hp : p c = true
    · simp [findIdxFrom, hp] at h
      refine ⟨0, c, by omega, rfl, hp, ?_⟩
      intro j d hj
      omega
    · simp [findIdxFrom, hp] at h
      obtain ⟨k, d, hik, hget, hpd, hmin⟩ := ih (base + 1) i h
      refine ⟨k + 1, d, by omega, by simpa using hget, hpd, ?_⟩
      intro j e hj hget2
      cases j with
      | zero =>
        simp at hget2
        subst hget2
        simpa using hp
      | succ j2 =>
        exact hmin j2 e (by omega) (by simpa using hget2)

/-- If the first-index scan answers `none`, no cell satisfies `p`. -/
theorem findIdxFrom_none (p : Cell → Bool) (row : List Cell) :
    ∀ (base : Nat), findIdxFrom p row base = Option.none →
      ∀ j d, row.get? j = some d → p d = false := by
  induction row with
  | nil => intro base _ j d hget; simp at hget
  | cons c rest ih =>
    intro base h j d hget
    by_cases hp : p c = true
    · simp [findIdxFrom, hp] at h
    · simp [findIdxFrom, hp] at h
      cases j with
      | zero =>
        simp at hget
        subst hget
        simpa using hp
      | succ j2 => exact ih (base + 1) h j2 d (by simpa using hget)

/-- Membership in the column-extraction accumulator: an entry `(i, v)`
is produced exactly for the first position carrying the text `v`, when
`v` was not already seen. -/
theorem extract_columns_aux_mem (rest : List Cell) :
    ∀ (base : Nat) (seen : List String) (i : Nat) (v : String),
      (i, v) ∈ extract_columns_aux rest base seen ↔
        ∃ k, i = base + k ∧ rest.get? k = some (Cell.str v) ∧
          seen.contains v = false ∧
          ∀ j, j < k → rest.get? j ≠ some (Cell.str v) := by
  induction rest with
  | nil => intro base seen i v; simp [extract_columns_aux]
  | cons c rest ih =>
    intro base seen i v
    cases c with
    | str s =>
      by_cases hs : seen.contains s = true
      · rw [show extract_columns_aux (Cell.str s :: rest) base seen
              = extract_columns_aux rest (base + 1) seen by
            simp only [extract_columns_aux]
            rw [if_pos hs]]
        rw [ih (base + 1) seen i v]
        constructor
        · rintro ⟨k, hik, hget, hcon, hmin⟩
          refine ⟨k + 1, by omega, by simpa using hget, hcon, ?_⟩
          intro j hj
          cases j with
          | zero =>
            simp only [List.get?_cons_zero, Option.some.injEq]
            intro hsv
            cases hsv
            rw [hcon] at hs
            exact Bool.false_ne_true hs
          | succ j2 =>
            intro hget2
            exact hmin j2 (by omega) (by simpa using hget2)
        · rintro ⟨k, hik, hget, hcon, hmin⟩
          cases k with
          | zero =>
            exfalso
            simp only [List.get?_cons_zero, Option.some.injEq, Cell.str.injEq] at hget
            cases hget
            rw [hcon] at hs
            exact Bool.false_ne_true hs
          | succ k2 =>
            refine ⟨k2, by omega, by simpa using hget, hcon, ?_⟩
            intro j hj hg
            exact hmin (j + 1) (by omega) (by simpa using hg)
      · rw [show extract_columns_aux (Cell.str s :: rest) base seen
              = (base, s) :: extract_columns_aux rest (base + 1) (s :: seen) by
            simp only [extract_columns_aux]
            rw [if_neg hs]]
        rw [List.mem_cons, ih (base + 1) (s :: seen) i v]
        constructor
        · rintro (hpair | ⟨k, hik, hget, hcon, hmin⟩)
          · obtain ⟨rfl, rfl⟩ := Prod.mk.injEq .. ▸ hpair
            refine ⟨0, by omega, rfl, by simpa using hs, ?_⟩
            intro j hj
            omega
          · have hvs : (v == s) = false ∧ seen.contains v = false := by
              have := hcon
              simp [List.contains_cons] at this
              constructor
              · simpa using this.1
              · simpa using this.2
            refine ⟨k + 1, by omega, by simpa using hget, hvs.2, ?_⟩
            intro j hj
            cases j with
            | zero =>
              simp only [List.get?_cons_zero, Option.some.injEq, Cell.str.injEq]
              intro hsv
              cases hsv
              simp at hvs
            | succ j2 =>
              intro hg
              exact hmin j2 (by omega) (by simpa using hg)
        · rintro ⟨k, hik, hget, hcon, hmin⟩
          cases k with
          | zero =>
            left
            simp only [List.get?_cons_zero, Option.some.injEq, Cell.str.injEq] at hget
            cases hget
            cases hik
            simp
          | succ k2 =>
            right
            have hvs : v ≠ s := by
              intro he
              cases he
              exact hmin 0 (by omega) (by simp)
            refine ⟨k2, by omega, by simpa using hget, ?_, ?_⟩
            · simp only [List.contains_cons, Bool.or_eq_false_iff]
              refine ⟨by simpa using hvs, hcon⟩
            · intro j hj hg
              exact hmin (j + 1) (by omega) (by simpa using hg)
    | num n =>
      rw [show extract_columns_aux (Cell.num n :: rest) base seen
            = extract_columns_aux rest (base + 1) seen by simp [extract_columns_aux]]
      rw [ih (base + 1) seen i v]
      constructor
      · rintro ⟨k, hik, hget, hcon, hmin⟩
        refine ⟨k + 1, by omega, by simpa using hget, hcon, ?_⟩
        intro j hj
        cases j with
        | zero => simp
        | succ j2 =>
          intro hg
          exact hmin j2 (by omega) (by simpa using hg)
      · rintro ⟨k, hik, hget, hcon, hmin⟩
        cases k with
        | zero => simp at hget
        | succ k2 =>
          refine ⟨k2, by omega, by simpa using hget, hcon, ?_⟩
          intro j hj hg
          exact hmin (j + 1) (by omega) (by simpa using hg)
    | blank =>
      rw [show extract_columns_aux (Cell.blank :: rest) base seen
            = extract_columns_aux rest (base + 1) seen by simp [extract_columns_aux]]
      rw [ih (base + 1) seen i v]
      constructor
      · rintro ⟨k, hik, hget, hcon, hmin⟩
        refine ⟨k + 1, by omega, by simpa using hget, hcon, ?_⟩
        intro j hj
        cases j with
        | zero => simp
        | succ j2 =>
          intro hg
          exact hmin j2 (by omega) (by simpa using hg)
      · rintro ⟨k, hik, hget, hcon, hmin⟩
        cases k with
        | zero => simp at hget
        | succ k2 =>
          refine ⟨k2, by omega, by simpa using hget, hcon, ?_⟩
          intro j hj hg
          exact hmin (j + 1) (by omega) (by simpa using hg)

/-- `extract_columns` records `(i, v)` exactly when column `i` holds the
text `v` and no earlier column holds the same text. -/
theorem extract_columns_mem (row : List Cell) (i : Nat) (v : String) :
    (i, v) ∈ extract_columns row ↔
      row.get? i = some (Cell.str v) ∧
        ∀ j, j < i → row.get? j ≠ some (Cell.str v) := by
  unfold extract_columns
  rw [extract_columns_aux_mem]
  constructor
  · rintro ⟨k, hik, hget, _, hmin⟩
    have hk : k = i := by omega
    subst hk
    exact ⟨hget, hmin⟩
  · rintro ⟨hget, hmin⟩
    exact ⟨i, by omega, hget, by simp, hmin⟩

/-- Looking up a key that `extract_columns` recorded returns its value. -/
theorem colLookup_extract (row : List Cell) (i : Nat) (v : String)
    (h : (i, v) ∈ extract_columns row) :
    colLookup (extract_columns row) i = some v := by
  unfold colLookup
  cases hf : (extract_columns row).find? (fun p => p.1 == i) with
  | none =>
    exfalso
    rw [List.find?_eq_none] at hf
    exact hf (i, v) h (by simp)
  | some e =>
    have he1 : e.1 = i := by simpa using List.find?_some hf
    have he2 : (e.1, e.2) ∈ extract_columns row := List.mem_of_find?_eq_some hf
    rw [he1] at he2
    have hg1 := ((extract_columns_mem row i v).mp h).1
    have hg2 := ((extract_columns_mem row i e.2).mp he2).1
    rw [hg1] at hg2
    simp only [Option.some.injEq, Cell.str.injEq] at hg2
    simp [hg2]

/-- Membership in a built row-record: the record holds `(h, c)` exactly
when some position `k` of the row holds `c` and the column map sends
`base + k` to the non-empty header `h`. -/
theorem buildRowAux_mem (cols : List (Nat × String)) (row : List Cell) :
    ∀ (base : Nat) (hd : String) (c : Cell),
      (hd, c) ∈ buildRowAux cols row base ↔
        ∃ k, row.get? k = some c ∧ colLookup cols (base + k) = some hd ∧ hd ≠ "" := by
  induction row with
  | nil => intro base hd c; simp [buildRowAux]
  | cons c0 rest ih =>
    intro base hd c
    cases hl : colLookup cols base with
    | none =>
      rw [show buildRowAux cols (c0 :: rest) base = buildRowAux cols rest (base + 1) by
        simp [buildRowAux, hl]]
      rw [ih (base + 1) hd c]
      constructor
      · rintro ⟨k, hget, hcl, hne⟩
        refine ⟨k + 1, by simpa using hget, ?_, hne⟩
        rw [show base + (k + 1) = base + 1 + k by omega]
        exact hcl
      · rintro ⟨k, hget, hcl, hne⟩
        cases k with
        | zero => rw [Nat.add_zero] at hcl; rw [hl] at hcl; cases hcl
        | succ k2 =>
          refine ⟨k2, by simpa using hget, ?_, hne⟩
          rw [show base + 1 + k2 = base + (k2 + 1) by omega]
          exact hcl
    | some h0 =>
      by_cases h0e : h0 = ""
      · subst h0e
        rw [show buildRowAux cols (c0 :: rest) base = buildRowAux cols rest (base + 1) by
          simp [buildRowAux, hl]]
        rw [ih (base + 1) hd c]
        constructor
        · rintro ⟨k, hget, hcl, hne⟩
          refine ⟨k + 1, by simpa using hget, ?_, hne⟩
          rw [show base + (k + 1) = base + 1 + k by omega]
          exact hcl
        · rintro ⟨k, hget, hcl, hne⟩
          cases k with
          | zero =>
            rw [Nat.add_zero] at hcl
            rw [hl] at hcl
            simp only [Option.some.injEq] at hcl
            exact absurd hcl.symm hne
          | succ k2 =>
            refine ⟨k2, by simpa using hget, ?_, hne⟩
            rw [show base + 1 + k2 = base + (k2 + 1) by omega]
            exact hcl
      · rw [show buildRowAux cols (c0 :: rest) base
              = (h0, c0) :: buildRowAux cols rest (base + 1) by
          simp [buildRowAux, hl, h0e]]
        rw [List.mem_cons, ih (base + 1) hd c]
        constructor
        · rintro (hpair | ⟨k, hget, hcl, hne⟩)
          · obtain ⟨rfl, rfl⟩ := Prod.mk.injEq .. ▸ hpair
            exact ⟨0, rfl, by simpa using hl, h0e⟩
          · refine ⟨k + 1, by simpa using hget, ?_, hne⟩
            rw [show base + (k + 1) = base + 1 + k by omega]
            exact hcl
        · rintro ⟨k, hget, hcl, hne⟩
          cases k with
          | zero =>
            left
            rw [Nat.add_zero] at hcl
            rw [hl] at hcl
            simp only [Option.some.injEq] at hcl
            simp only [List.get?_cons_zero, Option.some.injEq] at hget
            rw [hcl, hget]
          | succ k2 =>
            right
            refine ⟨k2, by simpa using hget, ?_, hne⟩
            rw [show base + 1 + k2 = base + (k2 + 1) by omega]
            exact hcl

/-- Membership in a built row-record, from position zero. -/
theorem buildRow_mem (cols : List (Nat × String)) (row : List Cell)
    (hd : String) (c : Cell) :
    (hd, c) ∈ buildRow cols row ↔
      ∃ k, row.get? k = some c ∧ colLookup cols k = some hd ∧ hd ≠ "" := by
  unfold buildRow
  rw [buildRowAux_mem]
  simp

/-! ### The target-column invariant -/

/-- The target column of a table is recorded in its column map under a
non-empty header, and every accumulated row-record has a textual entry
under that header. -/
def goodTable (t : Table) : Prop :=
  ∃ hd, colLookup t.columns t.target_index = some hd ∧ hd ≠ "" ∧
    ∀ rec ∈ t.rows, ∃ v : String, (hd, Cell.str v) ∈ rec

/-- The invariant holds of the active table and of every emitted one. -/
def goodState (st : SegState) : Prop :=
  (∀ t, st.active = some t → goodTable t) ∧ ∀ t ∈ st.out, goodTable t

/-- An empty target value matches no accept literal. -/
theorem matchesAny_empty_accept : matchesAny "" acceptLiterals = false := by decide

/-- An empty target value matches no reject literal. -/
theorem matchesAny_empty_reject : matchesAny "" rejectLiterals = false := by decide

/-! Step equations: one per branch of the loop body. -/

/-- Inactive state: one iteration is exactly the trigger scan. -/
theorem stepRow_inactive (st : SegState) (row : List Cell)
    (h : st.active = Option.none) :
    stepRow st row = triggerScan st.out row := by
  cases st
  cases h
  rfl

/-- Active state, accept match: the row-record is appended. -/
theorem stepRow_accept (st : SegState) (t : Table) (row : List Cell) (v : String)
    (h1 : st.active = some t)
    (h2 : targetValue row t.target_index = Cell.str v)
    (h3 : matchesAny v acceptLiterals = true) :
    stepRow st row =
      { active := some { t with rows := t.rows ++ [buildRow t.columns row] }
        out := st.out } := by
  cases st
  cases h1
  simp only [stepRow, h2]
  rw [if_pos h3]

/-- Active state, reject match: the state is unchanged. -/
theorem stepRow_reject (st : SegState) (t : Table) (row : List Cell) (v : String)
    (h1 : st.active = some t)
    (h2 : targetValue row t.target_index = Cell.str v)
    (h3 : matchesAny v acceptLiterals = false)
    (h4 : matchesAny v rejectLiterals = true) :
    stepRow st row = st := by
  cases st
  cases h1
  simp only [stepRow, h2]
  rw [if_neg (by simp [h3]), if_pos h4]

/-- Active state, terminate: the table is emitted and the state cleared;
the row itself is consumed (no re-scan). -/
theorem stepRow_term (st : SegState) (t : Table) (row : List Cell) (v : String)
    (h1 : st.active = some t)
    (h2 : targetValue row t.target_index = Cell.str v)
    (h3 : matchesAny v acceptLiterals = false)
    (h4 : matchesAny v rejectLiterals = false) :
    stepRow st row = { active := Option.none, out := st.out ++ [t] } := by
  cases st
  cases h1
  simp only [stepRow, h2]
  rw [if_neg (by simp [h3]), if_neg (by simp [h4])]

/-- Active state, non-string target: the state is unchanged (the
`isinstance(target_value, str)` guard has no `else` branch). -/
theorem stepRow_nonstr (st : SegState) (t : Table) (row : List Cell)
    (h1 : st.active = some t)
    (h2 : cellIsStr (targetValue row t.target_index) = false) :
    stepRow st row = st := by
  cases st
  cases h1
  cases htv : targetValue row t.target_index with
  | str v => rw [htv] at h2; simp [cellIsStr] at h2
  | num n => simp only [stepRow, htv]
  | blank => simp only [stepRow, htv]

/-- A freshly triggered table satisfies the invariant: the trigger cell
is a non-empty string whose exact text cannot occur at an earlier index
(that cell would have been the trigger itself), so `extract_columns`
records it at the trigger index. -/
theorem triggerScan_good (out : List Table) (row : List Cell)
    (hout : ∀ t ∈ out, goodTable t) : goodState (triggerScan out row) := by
  unfold triggerScan
  cases hf : findTriggerIdx row with
  | none => exact ⟨fun t ht => Option.noConfusion ht, hout⟩
  | some i =>
    refine ⟨?_, hout⟩
    intro t ht
    simp only [Option.some.injEq] at ht
    subst ht
    obtain ⟨k, c, hik, hget, hp, hmin⟩ := findIdxFrom_some isTriggerCell row 0 i hf
    have hki : k = i := by omega
    subst hki
    cases c with
    | str s =>
      have hs : s ≠ "" := by
        intro he
        rw [he] at hp
        simp [isTriggerCell] at hp
      have hmem : (k, s) ∈ extract_columns row := by
        rw [extract_columns_mem]
        refine ⟨hget, ?_⟩
        intro j hj hcontra
        have hj2 := hmin j (Cell.str s) hj hcontra
        rw [hp] at hj2
        exact Bool.noConfusion hj2
      exact ⟨s, colLookup_extract row k s hmem, hs, fun rec hrec => absurd hrec (by simp)⟩
    | num n => simp [isTriggerCell] at hp
    | blank => simp [isTriggerCell] at hp

/-- An accepted row's target cell really sits inside the row. -/
theorem targetValue_accept_get (row : List Cell) (i : Nat) (v : String)
    (htv : targetValue row i = Cell.str v)
    (hacc : matchesAny v acceptLiterals = true) :
    row.get? i = some (Cell.str v) := by
  unfold targetValue at htv
  cases hg : row.get? i with
  | none =>
    rw [hg] at htv
    simp only [Cell.str.injEq] at htv
    rw [← htv] at hacc
    rw [matchesAny_empty_accept] at hacc
    exact Bool.noConfusion hacc
  | some c =>
    rw [hg] at htv
    exact congrArg some htv

/-- Each loop iteration preserves the invariant. -/
theorem stepRow_good (st : SegState) (row : List Cell) (h : goodState st) :
    goodState (stepRow st row) := by
  cases ha : st.active with
  | none => rw [stepRow_inactive st row ha]; exact triggerScan_good st.out row h.2
  | some t =>
    have hgt : goodTable t := h.1 t ha
    cases htv : targetValue row t.target_index with
    | str v =>
      by_cases hacc : matchesAny v acceptLiterals = true
      · rw [stepRow_accept st t row v ha htv hacc]
        refine ⟨?_, h.2⟩
        intro t2 ht2
        simp only [Option.some.injEq] at ht2
        subst ht2
        obtain ⟨hd, hl, hne, hrows⟩ := hgt
        refine ⟨hd, hl, hne, ?_⟩
        intro rec hrec
        rcases List.mem_append.mp hrec with hold | hnew
        · exact hrows rec hold
        · rw [List.mem_singleton.mp hnew]
          exact ⟨v, (buildRow_mem t.columns row hd (Cell.str v)).mpr
            ⟨t.target_index, targetValue_accept_get row t.target_index v htv hacc, hl, hne⟩⟩
      · by_cases hrej : matchesAny v rejectLiterals = true
        · rw [stepRow_reject st t row v ha htv (by simpa using hacc) hrej]
          exact h
        · rw [stepRow_term st t row v ha htv (by simpa using hacc) (by simpa using hrej)]
          refine ⟨fun t2 ht2 => Option.noConfusion ht2, ?_⟩
          intro t2 ht2
          rcases List.mem_append.mp ht2 with hold | hnew
          · exact h.2 t2 hold
          · rw [List.mem_singleton.mp hnew]
            exact hgt
    | num n =>
      rw [stepRow_nonstr st t row ha (by rw [htv]; rfl)]
      exact h
    | blank =>
      rw [stepRow_nonstr st t row ha (by rw [htv]; rfl)]
      exact h

/-- The invariant holds after folding the loop over any row sequence. -/
theorem runRows_good (rows : List (List Cell)) : goodState (runRows rows) := by
  have hstep : ∀ (rs : List (List Cell)) (st : SegState),
      goodState st → goodState (rs.foldl stepRow st) := by
    intro rs
    induction rs with
    | nil => intro st h; exact h
    | cons r rs ih => intro st h; exact ih (stepRow st r) (stepRow_good st r h)
  exact hstep rows initState
    ⟨fun t ht => Option.noConfusion ht, fun t ht => absurd ht (List.not_mem_nil t)⟩

/-! ### Claim C1 -/

/-- Rows where an active table is terminated by a row that itself holds
a fresh trigger cell. -/
def c1rows : List (List Cell) :=
  [[Cell.str "반영여부", Cell.str "a"], [Cell.str "반영", Cell.str "x"],
   [Cell.str "보류", Cell.str "적합여부"], [Cell.str "반영", Cell.str "y"]]

/-- C1 counterexample: in `c1rows` the third row terminates the active
table (target value "보류" matches neither literal set) and carries the
trigger cell "적합여부", yet the code emits only ONE table — the
terminating row is consumed by `continue`, not re-scanned — whereas the
claimed re-scan behaviour (`process_rescan`, modelled from the spec)
would emit two. -/
theorem c1_counterexample :
    matchesAny "보류" acceptLiterals = false ∧
    matchesAny "보류" rejectLiterals = false ∧
    isTriggerCell (Cell.str "적합여부") = true ∧
    (process_extracted_table c1rows).length = 1 ∧
    (process_rescan c1rows).length = 2 := by decide

/-- C1 (amended): when a row read in the active state carries a target
value that is text but matches neither literal set, the Segmenter closes
and emits the current table and CONSUMES the row: the state becomes
inactive with no trigger re-scan of this row, so a trigger cell inside
the terminating row does not start a new table. -/
theorem c1_terminating_row_consumed (st : SegState) (t : Table)
    (row : List Cell) (v : String)
    (h1 : st.active = some t)
    (h2 : targetValue row t.target_index = Cell.str v)
    (h3 : matchesAny v acceptLiterals = false)
    (h4 : matchesAny v rejectLiterals = false) :
    stepRow st row = { active := Option.none, out := st.out ++ [t] } :=
  stepRow_term st t row v h1 h2 h3 h4

/-- C1 witness: the amended theorem applied to the terminating row of
`c1rows`. -/
theorem c1_witness :
    stepRow { active := some { columns := [(0, "반영여부"), (1, "a")], target_index := 0,
                               rows := [] }
              out := [] }
      [Cell.str "보류", Cell.str "적합여부"]
      = { active := Option.none
          out := [{ columns := [(0, "반영여부"), (1, "a")], target_index := 0, rows := [] }] } :=
  c1_terminating_row_consumed _ _ _ "보류" rfl rfl (by decide) (by decide)

/-! ### Claim C2 -/

/-- A trigger row followed by a row whose target value is numeric. -/
def c2rows : List (List Cell) := [[Cell.str "반영여부"], [Cell.num 5]]

/-- C2 counterexample: after reading a numeric target value in the
active state the table has NOT been appended to the output and the
state is still active — the row was silently skipped (the
`isinstance(target_value, str)` guard has no `else` branch), contrary to
the claimed termination. -/
theorem c2_counterexample :
    (runRows c2rows).active.isSome = true ∧ (runRows c2rows).out = [] := by decide

/-- C2 (amended): when a row read in the active state has a target value
that is not text (for example a numeric value), the Segmenter leaves the
state completely unchanged: the row is silently skipped and the table
remains active (it is NOT terminated). -/
theorem c2_nonstring_target_skips_row (st : SegState) (t : Table) (row : List Cell)
    (h1 : st.active = some t)
    (h2 : cellIsStr (targetValue row t.target_index) = false) :
    stepRow st row = st :=
  stepRow_nonstr st t row h1 h2

/-- C2 witness: the amended theorem applied to a numeric target value. -/
theorem c2_witness :
    stepRow { active := some { columns := [(0, "반영여부")], target_index := 0, rows := [] }
              out := [] }
      [Cell.num 5]
      = { active := some { columns := [(0, "반영여부")], target_index := 0, rows := [] }
          out := [] } :=
  c2_nonstring_target_skips_row _ _ _ rfl rfl

/-! ### Claim C3 -/

/-- Scenario A of the spec. -/
def scenarioA : List (List Cell) :=
  [[Cell.str "", Cell.str "적합여부", Cell.str "", Cell.str "비고"],
   [Cell.str "X", Cell.str "적합", Cell.str "", Cell.str "ok"],
   [Cell.str "Y", Cell.str "미반영", Cell.str "", Cell.str "n/a"],
   [Cell.str "Z", Cell.str "보류", Cell.str "", Cell.str "stop"]]

/-- C3 counterexample: on Scenario A the single output table accumulates
TWO row-records, not the claimed one — "미반영" contains the accept
literal "반영" as a substring, so the third row is kept, not skipped. -/
theorem c3_counterexample :
    (process_extracted_table scenarioA).map (fun t => t.rows.length) = [2] := by decide

/-- C3 (amended): on Scenario A the Segmenter outputs exactly one table
with `target_index` 1 and columns `{0:"", 1:"적합여부", 3:"비고"}` (the
first empty-text cell is also recorded as a header), whose rows keep
BOTH the "적합" row and the "미반영" row (the accept check for "반영"
matches inside "미반영"); termination still occurs at the row whose
target value is "보류": after three rows the table is still active and
unemitted, after the fourth it is closed and emitted. -/
theorem c3_scenarioA_actual :
    process_extracted_table scenarioA =
      [{ columns := [(0, ""), (1, "적합여부"), (3, "비고")], target_index := 1,
         rows := [[("적합여부", Cell.str "적합"), ("비고", Cell.str "ok")],
                  [("적합여부", Cell.str "미반영"), ("비고", Cell.str "n/a")]] }] ∧
    (runRows (scenarioA.take 3)).active.isSome = true ∧
    (runRows (scenarioA.take 3)).out = [] ∧
    (runRows scenarioA).active = Option.none := by decide

/-! ### Claim C4 -/

/-- A trigger row whose first cell is the empty text, then an accepted
row. -/
def c4rows : List (List Cell) :=
  [[Cell.str "", Cell.str "반영여부"], [Cell.str "v", Cell.str "반영"]]

/-- C4 counterexample: on `c4rows` column index 0 IS a key of the
ColumnMap (its header is the empty text), yet the appended row-record
projects only the header "반영여부" — the cell at index 0 gets no entry,
because the projection tests the header for truthiness and skips empty
headers. -/
theorem c4_counterexample :
    (process_extracted_table c4rows).map
        (fun t => (colLookup t.columns 0, t.rows.map (fun rec => rec.map Prod.fst)))
      = [(some "", [["반영여부"]])] := by decide

/-- C4 (amended): for every row accepted while a table is active, the
appended row-record contains an entry `header → value` exactly for the
cells whose column index is mapped by the ColumnMap to a NON-EMPTY
header (including the cell at `target_index`, whose header is always
non-empty), and no other entries; keys carrying the empty-string header
are skipped by the truthiness test of the projection. -/
theorem c4_projection :
    (∀ (st : SegState) (t : Table) (row : List Cell) (v : String),
        st.active = some t →
        targetValue row t.target_index = Cell.str v →
        matchesAny v acceptLiterals = true →
        stepRow st row =
          { active := some { t with rows := t.rows ++ [buildRow t.columns row] }
            out := st.out }) ∧
    (∀ (cols : List (Nat × String)) (row : List Cell) (hd : String) (c : Cell),
        (hd, c) ∈ buildRow cols row ↔
          ∃ k, row.get? k = some c ∧ colLookup cols k = some hd ∧ hd ≠ "") :=
  ⟨stepRow_accept, buildRow_mem⟩

/-- C4 witness: the record built for the accepted row of `c4rows`
contains the target entry, derived through the amended theorem. -/
theorem c4_witness :
    ("반영여부", Cell.str "반영") ∈
      buildRow [(0, ""), (1, "반영여부")] [Cell.str "v", Cell.str "반영"] :=
  (c4_projection.2 [(0, ""), (1, "반영여부")] [Cell.str "v", Cell.str "반영"]
      "반영여부" (Cell.str "반영")).mpr ⟨1, rfl, rfl, by decide⟩

/-! ### Claim C5 -/

/-- C5 counterexample: a trigger text with an embedded TAB character.
Removing all whitespace characters (the claim's normalization, modelled
by `specTriggerCell`) yields the trigger literal, but the code only
strips space characters (`replace(" ", "")`), so the cell is NOT
recognized. -/
theorem c5_counterexample :
    isTriggerCell (Cell.str "반영\t여부") = false ∧
    specTriggerCell (Cell.str "반영\t여부") = true := by decide

/-- C5 (amended): in the inactive state a cell triggers header detection
exactly when it is a text value that, after removing all SPACE
characters (U+0020) — not all whitespace — equals "반영여부" or
"적합여부"; "반영 여부" with embedded spaces is recognized identically
to "반영여부", and the first such cell by column index is the one used
(no trigger is detected when no cell qualifies). -/
theorem c5_trigger_characterization :
    (∀ c, isTriggerCell c = true ↔
        ∃ s, c = Cell.str s ∧ (stripSpaces s = "반영여부" ∨ stripSpaces s = "적합여부")) ∧
    isTriggerCell (Cell.str "반영 여부") = true ∧
    (∀ row i, findTriggerIdx row = some i →
        ∃ c, row.get? i = some c ∧ isTriggerCell c = true ∧
          ∀ j d, j < i → row.get? j = some d → isTriggerCell d = false) ∧
    (∀ row, findTriggerIdx row = Option.none →
        ∀ j d, row.get? j = some d → isTriggerCell d = false) := by
  refine ⟨?_, by decide, ?_, ?_⟩
  · intro c
    constructor
    · intro hc
      cases c with
      | str s =>
        refine ⟨s, rfl, ?_⟩
        simp only [isTriggerCell, Bool.and_eq_true] at hc
        have h2 := hc.2
        simp only [triggerLiterals, List.contains_cons, List.contains_nil,
          Bool.or_eq_true, beq_iff_eq] at h2
        rcases h2 with h | h | h
        · exact Or.inl h
        · exact Or.inr h
        · exact Bool.noConfusion h
      | num n => simp [isTriggerCell] at hc
      | blank => simp [isTriggerCell] at hc
    · rintro ⟨s, rfl, hor⟩
      have hne : s ≠ "" := by
        intro he
        subst he
        rcases hor with h | h
        · exact absurd h (by decide)
        · exact absurd h (by decide)
      simp only [isTriggerCell, Bool.and_eq_true]
      refine ⟨by simpa using hne, ?_⟩
      simp only [triggerLiterals, List.contains_cons, List.contains_nil,
        Bool.or_eq_true, beq_iff_eq]
      rcases hor with h | h
      · exact Or.inl h
      · exact Or.inr (Or.inl h)
  · intro row i hf
    obtain ⟨k, c, hik, hget, hp, hmin⟩ := findIdxFrom_some isTriggerCell row 0 i hf
    have hki : k = i := by omega
    subst hki
    exact ⟨c, hget, hp, hmin⟩
  · intro row hf
    exact findIdxFrom_none isTriggerCell row 0 hf

/-- C5 witness: a trigger text with an embedded space is recognized,
via the amended theorem. -/
theorem c5_witness : isTriggerCell (Cell.str "반영 여부") = true :=
  c5_trigger_characterization.2.1

/-! ### Claim C6 -/

/-- C6: a target value matching BOTH an accept and a reject literal is
classified Keep — the accept check of line 183 runs first, so the row is
appended and the table stays active. -/
theorem c6_accept_priority (st : SegState) (t : Table) (row : List Cell) (v : String)
    (h1 : st.active = some t)
    (h2 : targetValue row t.target_index = Cell.str v)
    (hacc : matchesAny v acceptLiterals = true)
    (_hrej : matchesAny v rejectLiterals = true) :
    stepRow st row =
      { active := some { t with rows := t.rows ++ [buildRow t.columns row] }
        out := st.out } :=
  stepRow_accept st t row v h1 h2 hacc

/-- C6 witness: "미반영" contains the accept literal "반영" and the
reject literal "미반영", and is kept. -/
theorem c6_witness :
    stepRow { active := some { columns := [(0, "반영여부")], target_index := 0, rows := [] }
              out := [] }
      [Cell.str "미반영"]
      = { active := some { columns := [(0, "반영여부")], target_index := 0,
                           rows := [[("반영여부", Cell.str "미반영")]] }
          out := [] } :=
  c6_accept_priority
    { active := some { columns := [(0, "반영여부")], target_index := 0, rows := [] }
      out := [] }
    { columns := [(0, "반영여부")], target_index := 0, rows := [] }
    [Cell.str "미반영"] "미반영" rfl rfl (by decide) (by decide)

/-! ### Claim C7 -/

/-- C7: the ColumnMap built from a trigger row maps a column index to a
text value exactly when that cell holds the text and the same text does
not occur at any smaller column index (first occurrence wins); non-text
cells and duplicates produce no entry, so header names are unique within
every ColumnMap. -/
theorem c7_column_map_unique (row : List Cell) :
    (∀ i v, (i, v) ∈ extract_columns row ↔
        row.get? i = some (Cell.str v) ∧
          ∀ j, j < i → row.get? j ≠ some (Cell.str v)) ∧
    (∀ i v j w, (i, v) ∈ extract_columns row → (j, w) ∈ extract_columns row →
        i ≠ j → v ≠ w) := by
  refine ⟨fun i v => extract_columns_mem row i v, ?_⟩
  intro i v j w hi hj hne hvw
  subst hvw
  obtain ⟨hg1, hm1⟩ := (extract_columns_mem row i v).mp hi
  obtain ⟨hg2, hm2⟩ := (extract_columns_mem row j v).mp hj
  rcases Nat.lt_trichotomy i j with h | h | h
  · exact hm2 i h hg1
  · exact hne h
  · exact hm1 j h hg2

/-- C7 witness: on a concrete row with a duplicate text, the entry at
the later index is recognized through the characterization. -/
theorem c7_witness :
    (1, "a") ∈ extract_columns [Cell.blank, Cell.str "a", Cell.str "a"] :=
  ((c7_column_map_unique [Cell.blank, Cell.str "a", Cell.str "a"]).1 1 "a").mpr
    (by decide)

/-! ### Claim C8 -/

/-- C8: a table still active when the rows are exhausted is appended to
the output exactly once at the flush (lines 200-201), even with zero
accepted rows; when no table is active nothing extra is appended.  The
final conjunct is Scenario D: a trigger row immediately followed by
end-of-input yields one table with an empty `rows` sequence. -/
theorem c8_flush_on_exhaustion :
    (∀ rows t, (runRows rows).active = some t →
        process_extracted_table rows = (runRows rows).out ++ [t]) ∧
    (∀ rows, (runRows rows).active = Option.none →
        process_extracted_table rows = (runRows rows).out) ∧
    process_extracted_table [[Cell.str "반영여부"]]
      = [{ columns := [(0, "반영여부")], target_index := 0, rows := [] }] := by
  refine ⟨?_, ?_, by decide⟩
  · intro rows t h
    unfold process_extracted_table
    rw [h]
  · intro rows h
    unfold process_extracted_table
    rw [h]

/-- C8 witness: with no rows at all nothing is active and nothing is
emitted, via the flush theorem. -/
theorem c8_witness : process_extracted_table [] = [] :=
  c8_flush_on_exhaustion.2.1 [] rfl

/-! ### Claim C9 -/

/-- C9: reading the target cell of a row shorter than
`target_index + 1` never faults: the value is the defensive empty text
(line 180), which matches neither literal set, so the step totally and
safely closes the table exactly as the terminate case does. -/
theorem c9_short_row_safe (st : SegState) (t : Table) (row : List Cell)
    (h1 : st.active = some t)
    (h2 : row.length ≤ t.target_index) :
    targetValue row t.target_index = Cell.str "" ∧
    stepRow st row = { active := Option.none, out := st.out ++ [t] } := by
  have hg : row.get? t.target_index = Option.none := by
    rw [List.get?_eq_none]
    exact h2
  have htv : targetValue row t.target_index = Cell.str "" := by
    unfold targetValue
    rw [hg]
  exact ⟨htv, stepRow_term st t row "" h1 htv matchesAny_empty_accept matchesAny_empty_reject⟩

/-- C9 witness: a one-cell row under a table targeting column 2. -/
theorem c9_witness :
    targetValue [Cell.str "x"] 2 = Cell.str "" ∧
    stepRow { active := some { columns := [(2, "반영여부")], target_index := 2, rows := [] }
              out := [] }
      [Cell.str "x"]
      = { active := Option.none
          out := [{ columns := [(2, "반영여부")], target_index := 2, rows := [] }] } :=
  c9_short_row_safe
    { active := some { columns := [(2, "반영여부")], target_index := 2, rows := [] }
      out := [] }
    { columns := [(2, "반영여부")], target_index := 2, rows := [] }
    [Cell.str "x"] rfl (by decide)

/-! ### Claim C10 -/

/-- C10: every table in the output records its target column: the
target index is a key of its ColumnMap bound to a non-empty header name
(an earlier column with the identical text would itself have been the
trigger), and every accumulated row-record carries a textual entry under
that header. -/
theorem c10_target_column_recorded (rows : List (List Cell)) (t : Table)
    (ht : t ∈ process_extracted_table rows) :
    ∃ hd, colLookup t.columns t.target_index = some hd ∧ hd ≠ "" ∧
      ∀ rec ∈ t.rows, ∃ v : String, (hd, Cell.str v) ∈ rec := by
  have hg := runRows_good rows
  unfold process_extracted_table at ht
  cases hact : (runRows rows).active with
  | none =>
    rw [hact] at ht
    exact hg.2 t ht
  | some t0 =>
    rw [hact] at ht
    rcases List.mem_append.mp ht with hold | hnew
    · exact hg.2 t hold
    · rw [List.mem_singleton.mp hnew]
      exact hg.1 t0 hact

/-- C10 witness: the Scenario-D table of a single trigger row. -/
theorem c10_witness :
    ∃ hd, colLookup [(0, "반영여부")] 0 = some hd ∧ hd ≠ "" ∧
      ∀ rec ∈ ([] : List (List (String × Cell))), ∃ v : String, (hd, Cell.str v) ∈ rec :=
  c10_target_column_recorded [[Cell.str "반영여부"]]
    { columns := [(0, "반영여부")], target_index := 0, rows := [] } (by decide)

end Seg
